import Mathlib

/-!
Verification of the resource-record bookkeeping core of
`renderdoc/driver/d3d12/d3d12_manager.h` (`D3D12ResourceRecord`).

The embedding models:
- the chunk collection `map<int32_t, Chunk*>` as a key-sorted association
  list (`RecordList`), with `mapInsert` reproducing `std::map::insert`
  (which does not overwrite an existing key);
- a record (`RecordData`) with its write-once latch `dataWritten`, its
  chunk map `chunks`, its parent and subresource links (record indices
  into a state list), its 32 shadow slots and 32 context flags;
- `D3D12ResourceRecord::Insert` as `insertF`, a fuel-indexed recursive
  function over the record-graph state, where the fuel is exactly the
  recursion-depth budget (one unit per nested activation);
- `AllocShadowStorage` / `VerifyShadowStorage` / `FreeShadowStorage` /
  `GetContextID` / `FreeContextID` / `SetDataPtr` directly.
-/

/-- Chunk collection: the `map<int32_t, Chunk *>` of `Insert`, as a
key-sorted association list from chunk id to chunk handle. -/
abbrev RecordList := List (Int × Nat)

/-- Insertion into the key-sorted chunk map; like `std::map::insert`, a
key already present is left untouched (no overwrite). -/
def mapInsert : RecordList → Int → Nat → RecordList
  | [], k, v => [(k, v)]
  | (k1, v1) :: rest, k, v =>
    if k < k1 then (k, v) :: (k1, v1) :: rest
    else if k = k1 then (k1, v1) :: rest
    else (k1, v1) :: mapInsert rest k v

/-- Range insertion `recordlist.insert(first, last)`: the elements are
inserted in order, keys already present being skipped. -/
def mapInsertRange (m : RecordList) (xs : RecordList) : RecordList :=
  xs.foldl (fun acc kv => mapInsert acc kv.1 kv.2) m

/-- Membership of a chunk id among the keys of a chunk map. -/
def keyMem (m : RecordList) (k : Int) : Bool :=
  m.any (fun kv => kv.1 == k)

/-- Keys strictly increase along the list (the `std::map` ordering
invariant); this implies that no chunk id appears twice. -/
def sortedKeys : RecordList → Bool
  | [] => true
  | kv :: rest => rest.all (fun kv2 => decide (kv.1 < kv2.1)) && sortedKeys rest

/-- Modelled from the spec: the canonical fixed 32-byte guard pattern
`D3D12ResourceRecord::markerValue`, whose concrete bytes are defined in a
translation unit outside this header.  The claims depend only on the
pattern being a fixed 32-byte value. -/
def markerValue : List Nat :=
  [0xaa, 0xbb, 0xcc, 0xdd, 0xaa, 0xbb, 0xcc, 0xdd,
   0xaa, 0xbb, 0xcc, 0xdd, 0xaa, 0xbb, 0xcc, 0xdd,
   0xaa, 0xbb, 0xcc, 0xdd, 0xaa, 0xbb, 0xcc, 0xdd,
   0xaa, 0xbb, 0xcc, 0xdd, 0xaa, 0xbb, 0xcc, 0xdd]

/-- Shadow slot: the pair `ShadowPtr[ctx][0] / ShadowPtr[ctx][1]` plus the
recorded `ShadowSize[ctx]`.  A buffer is a byte list; `none` models the
null pointer. -/
structure ShadowSlot where
  buf0 : Option (List Nat)
  buf1 : Option (List Nat)
  size : Nat
deriving DecidableEq, Repr

def emptySlot : ShadowSlot := ⟨none, none, 0⟩

/-- State of one `D3D12ResourceRecord`.  Parents and subresources are
stored as indices of records in the ambient state list. -/
structure RecordData where
  dataWritten : Bool
  chunks : RecordList
  parents : List Nat
  subResources : List Nat
  shadow : List ShadowSlot
  contexts : List Bool
  dataPtr : Nat
deriving DecidableEq, Repr

/-- Default record used for out-of-range lookups: it is committed and
empty, so a dangling index is inert under every operation. -/
def defaultRec : RecordData :=
  { dataWritten := true, chunks := [], parents := [], subResources := [],
    shadow := [], contexts := [], dataPtr := 0 }

/-- Record graph: the collection of live records, addressed by index. -/
abbrev RState := List RecordData

def getRec (s : RState) (x : Nat) : RecordData := s.getD x defaultRec

def committedIn (s : RState) (x : Nat) : Bool := (getRec s x).dataWritten

/-- Setting the write-once latch `DataWritten = true` on record `r`. -/
def commit (s : RState) (r : Nat) : RState :=
  s.set r { getRec s r with dataWritten := true }

/-- Guarded recursion over the `Parents` loop of `Insert`: a parent is
visited only when its `DataWritten` latch is still false at loop time. -/
def foldInsGuard (f : RState → RecordList → Nat → Option (RState × RecordList)) :
    RState → RecordList → List Nat → Option (RState × RecordList)
  | s, c, [] => some (s, c)
  | s, c, p :: rest =>
    if committedIn s p then foldInsGuard f s c rest
    else
      match f s c p with
      | none => none
      | some (s1, c1) => foldInsGuard f s1 c1 rest

/-- Unguarded recursion over the `SubResources` loop of `Insert`. -/
def foldIns (f : RState → RecordList → Nat → Option (RState × RecordList)) :
    RState → RecordList → List Nat → Option (RState × RecordList)
  | s, c, [] => some (s, c)
  | s, c, q :: rest =>
    match f s c q with
    | none => none
    | some (s1, c1) => foldIns f s1 c1 rest

/-- `D3D12ResourceRecord::Insert` with an explicit recursion-depth budget
(`fuel`): save `dataWritten`, set the latch, walk the parents under the
latch guard, and on a first visit merge the record's own chunks and walk
every subresource.  `none` means the execution would need nesting deeper
than `fuel`. -/
def insertF : Nat → RState → RecordList → Nat → Option (RState × RecordList)
  | 0, _, _, _ => none
  | fuel + 1, s, c, r =>
    match foldInsGuard (insertF fuel) (commit s r) c (getRec s r).parents with
    | none => none
    | some (s2, c2) =>
      if (getRec s r).dataWritten then some (s2, c2)
      else
        foldIns (insertF fuel) s2 (mapInsertRange c2 (getRec s r).chunks)
          (getRec s r).subResources

/-- Depth budget that always suffices (proved below): twice the record
count plus two. -/
def insertBound (s : RState) : Nat := 2 * s.length + 2

/-- The resolve operation (`D3D12ResourceRecord::Insert`) run with a
sufficient depth budget. -/
def resolve (s : RState) (c : RecordList) (r : Nat) : Option (RState × RecordList) :=
  insertF (insertBound s) s c r

/-- `D3D12ResourceRecord::AllocShadowStorage`: when `ShadowPtr[ctx][0]`
is null, allocate both buffers with `size + sizeof(markerValue)` bytes,
copy the marker after the first `size` bytes of each, and record the
size; otherwise do nothing.  Uninitialised bytes are modelled as zero. -/
def AllocShadowStorage (r : RecordData) (ctx size : Nat) : RecordData :=
  match (r.shadow.getD ctx emptySlot).buf0 with
  | some _ => r
  | none =>
    let buf := List.replicate size 0 ++ markerValue
    { r with shadow := r.shadow.set ctx ⟨some buf, some buf, size⟩ }

def getSlot (r : RecordData) (ctx : Nat) : ShadowSlot :=
  r.shadow.getD ctx emptySlot

/-- Comparison `memcmp(buf + size, markerValue, sizeof(markerValue)) == 0`. -/
def guardOK (buf : List Nat) (sz : Nat) : Bool :=
  ((buf.drop sz).take 32) == markerValue

/-- `D3D12ResourceRecord::VerifyShadowStorage`: false as soon as an
allocated buffer's bytes at the recorded size no longer match the marker. -/
def VerifyShadowStorage (r : RecordData) (ctx : Nat) : Bool :=
  (match (getSlot r ctx).buf0 with
   | none => true
   | some buf => guardOK buf (getSlot r ctx).size) &&
  (match (getSlot r ctx).buf1 with
   | none => true
   | some buf => guardOK buf (getSlot r ctx).size)

/-- `D3D12ResourceRecord::FreeShadowStorage`: every slot's buffers are
freed and nulled (the recorded sizes are not reset). -/
def FreeShadowStorage (r : RecordData) : RecordData :=
  { r with shadow := r.shadow.map (fun sl => { sl with buf0 := none, buf1 := none }) }

/-- A mapped write of byte `b` at offset `idx` of buffer `which` of slot
`ctx`, through `GetShadowPtr` — used to model guard corruption. -/
def writeShadowByte (r : RecordData) (ctx which idx b : Nat) : RecordData :=
  let sl := getSlot r ctx
  let sl1 := if which = 0
    then { sl with buf0 := sl.buf0.map (fun buf => buf.set idx b) }
    else { sl with buf1 := sl.buf1.map (fun buf => buf.set idx b) }
  { r with shadow := r.shadow.set ctx sl1 }

/-- `D3D12ResourceRecord::GetContextID`: scan slots 1..31 for the first
free one, mark it used and return it; when none is free, report the
exhaustion error (third component `true`) and return the sentinel 0 with
the table untouched. -/
def GetContextID (r : RecordData) : Nat × RecordData × Bool :=
  match ((List.range 31).map (· + 1)).find? (fun i => r.contexts.getD i true = false) with
  | some i => (i, { r with contexts := r.contexts.set i true }, false)
  | none => (0, r, true)

/-- `D3D12ResourceRecord::FreeContextID`. -/
def FreeContextID (r : RecordData) (ctx : Nat) : RecordData :=
  { r with contexts := r.contexts.set ctx false }

/-- List recursion of `SetDataPtr` over the subresource indices. -/
def setDataPtrList (f : RState → Nat → RState) : RState → List Nat → RState
  | s, [] => s
  | s, q :: rest => setDataPtrList f (f s q) rest

/-- `D3D12ResourceRecord::SetDataPtr`: store the pointer and propagate it
to every subresource (with a depth budget, as for `Insert`). -/
def setDataPtrF : Nat → RState → Nat → Nat → RState
  | 0, s, _, _ => s
  | fuel + 1, s, r, ptr =>
    setDataPtrList (fun acc q => setDataPtrF fuel acc q ptr)
      (s.set r { getRec s r with dataPtr := ptr }) (getRec s r).subResources

/-- A freshly constructed `D3D12ResourceRecord`: `RDCEraseEl(ShadowPtr)`
and `RDCEraseEl(contexts)` zero the tables, and the base constructor
starts with the latch clear and no chunks. -/
def freshRecord : RecordData :=
  { dataWritten := false, chunks := [], parents := [], subResources := [],
    shadow := List.replicate 32 emptySlot,
    contexts := List.replicate 32 false, dataPtr := 0 }

/-- Successive `GetContextID` calls, collecting the returned ids. -/
def allocSeq : Nat → RecordData → List Nat × RecordData
  | 0, r => ([], r)
  | n + 1, r =>
    let step := GetContextID r
    let rest := allocSeq n step.2.1
    (step.1 :: rest.1, rest.2)

/-! Generic list access lemmas used throughout. -/

theorem getD_set_self {α : Type} (l : List α) (i : Nat) (d a : α) (h : i < l.length) :
    (l.set i a).getD i d = a := by
  induction l generalizing i with
  | nil => simp at h
  | cons x xs ih =>
    cases i with
    | zero => simp
    | succ n =>
      simp only [List.set, List.getD_cons_succ]
      exact ih n (by simpa using Nat.lt_of_succ_lt_succ h)

theorem getD_set_ne {α : Type} (l : List α) (i j : Nat) (d a : α) (h : j ≠ i) :
    (l.set i a).getD j d = l.getD j d := by
  induction l generalizing i j with
  | nil => simp
  | cons x xs ih =>
    cases i with
    | zero =>
      cases j with
      | zero => exact absurd rfl h
      | succ m => simp
    | succ n =>
      cases j with
      | zero => simp
      | succ m =>
        simp only [List.set, List.getD_cons_succ]
        exact ih n m (fun hx => h (by simp [hx]))

theorem set_oob {α : Type} (l : List α) (i : Nat) (a : α) (h : l.length ≤ i) :
    l.set i a = l := by
  induction l generalizing i with
  | nil => simp
  | cons x xs ih =>
    cases i with
    | zero => simp at h
    | succ n =>
      simp only [List.set, List.cons.injEq, true_and]
      exact ih n (by simpa using Nat.le_of_succ_le_succ h)

theorem getD_oob {α : Type} (l : List α) (i : Nat) (d : α) (h : l.length ≤ i) :
    l.getD i d = d := by
  induction l generalizing i with
  | nil => simp
  | cons x xs ih =>
    cases i with
    | zero => simp at h
    | succ n =>
      simp only [List.getD_cons_succ]
      exact ih n (by simpa using Nat.le_of_succ_le_succ h)

theorem set_getD_self {α : Type} (l : List α) (i : Nat) (d : α) (h : i < l.length) :
    l.set i (l.getD i d) = l := by
  induction l generalizing i with
  | nil => simp
  | cons x xs ih =>
    cases i with
    | zero => simp
    | succ n =>
      simp only [List.getD_cons_succ, List.set, List.cons.injEq, true_and]
      exact ih n (by simpa using Nat.lt_of_succ_lt_succ h)

theorem getD_mem_or_default {α : Type} (l : List α) (i : Nat) (d : α) :
    l.getD i d ∈ l ∨ l.getD i d = d := by
  induction l generalizing i with
  | nil => simp
  | cons x xs ih =>
    cases i with
    | zero => simp
    | succ n =>
      simp only [List.getD_cons_succ]
      rcases ih n with h | h
      · exact Or.inl (List.mem_cons_of_mem _ h)
      · exact Or.inr h

/-! Basic facts about `commit` and the latch. -/

theorem length_commit (s : RState) (r : Nat) : (commit s r).length = s.length := by
  simp [commit]

theorem committedIn_commit_self (s : RState) (r : Nat) :
    committedIn (commit s r) r = true := by
  unfold committedIn getRec commit
  by_cases h : r < s.length
  · rw [getD_set_self _ _ _ _ h]
  · have hoob : s.length ≤ r := Nat.le_of_not_lt h
    rw [set_oob _ _ _ hoob, getD_oob _ _ _ hoob]
    rfl

theorem getRec_commit_ne (s : RState) (r x : Nat) (h : x ≠ r) :
    getRec (commit s r) x = getRec s x := by
  unfold getRec commit
  rw [getD_set_ne _ _ _ _ _ h]

theorem flag_update_self (rd : RecordData) (h : rd.dataWritten = true) :
    { rd with dataWritten := true } = rd := by
  cases rd
  simp_all

theorem commit_of_committed (s : RState) (r : Nat) (h : committedIn s r = true) :
    commit s r = s := by
  by_cases hr : r < s.length
  · unfold commit
    rw [flag_update_self _ h]
    exact set_getD_self _ _ _ hr
  · exact set_oob _ _ _ (Nat.le_of_not_lt hr)

/-! Shape preservation: `Insert` mutates nothing but the `DataWritten`
latches, and latches only go from false to true. -/

def sameShape (s t : RState) : Prop :=
  t.length = s.length ∧ ∀ x : Nat,
    (getRec t x).chunks = (getRec s x).chunks ∧
    (getRec t x).parents = (getRec s x).parents ∧
    (getRec t x).subResources = (getRec s x).subResources ∧
    (getRec t x).shadow = (getRec s x).shadow ∧
    (getRec t x).contexts = (getRec s x).contexts ∧
    (getRec t x).dataPtr = (getRec s x).dataPtr

def Mono (s t : RState) : Prop :=
  sameShape s t ∧ ∀ x : Nat, committedIn s x = true → committedIn t x = true

theorem Mono.refl (s : RState) : Mono s s :=
  ⟨⟨rfl, fun _ => ⟨rfl, rfl, rfl, rfl, rfl, rfl⟩⟩, fun _ h => h⟩

theorem Mono.mcomp {s t u : RState} (h1 : Mono s t) (h2 : Mono t u) : Mono s u := by
  obtain ⟨⟨hl1, hs1⟩, hf1⟩ := h1
  obtain ⟨⟨hl2, hs2⟩, hf2⟩ := h2
  refine ⟨⟨hl2.trans hl1, fun x => ?_⟩, fun x h => hf2 x (hf1 x h)⟩
  obtain ⟨a1, b1, c1, d1, e1, f1⟩ := hs1 x
  obtain ⟨a2, b2, c2, d2, e2, f2⟩ := hs2 x
  exact ⟨a2.trans a1, b2.trans b1, c2.trans c1, d2.trans d1, e2.trans e1, f2.trans f1⟩

theorem mono_commit (s : RState) (r : Nat) : Mono s (commit s r) := by
  refine ⟨⟨length_commit s r, fun x => ?_⟩, fun x h => ?_⟩
  · by_cases hx : x = r
    · subst hx
      by_cases hr : x < s.length
      · unfold getRec commit
        rw [getD_set_self _ _ _ _ hr]
        exact ⟨rfl, rfl, rfl, rfl, rfl, rfl⟩
      · rw [commit, set_oob _ _ _ (Nat.le_of_not_lt hr)]
        exact ⟨rfl, rfl, rfl, rfl, rfl, rfl⟩
    · rw [getRec_commit_ne _ _ _ hx]
      exact ⟨rfl, rfl, rfl, rfl, rfl, rfl⟩
  · by_cases hx : x = r
    · subst hx; exact committedIn_commit_self s x
    · rwa [committedIn, getRec_commit_ne _ _ _ hx]

theorem Mono.parents_eq {s t : RState} (h : Mono s t) (x : Nat) :
    (getRec t x).parents = (getRec s x).parents :=
  (h.1.2 x).2.1

theorem Mono.chunks_eq {s t : RState} (h : Mono s t) (x : Nat) :
    (getRec t x).chunks = (getRec s x).chunks :=
  (h.1.2 x).1

theorem Mono.subResources_eq {s t : RState} (h : Mono s t) (x : Nat) :
    (getRec t x).subResources = (getRec s x).subResources :=
  (h.1.2 x).2.2.1

theorem Mono.not_committed {s t : RState} (h : Mono s t) (x : Nat)
    (hx : committedIn t x = false) : committedIn s x = false := by
  cases hc : committedIn s x
  · rfl
  · rw [h.2 x hc] at hx
    simp at hx


/-! Counting uncommitted records: the termination measure of `Insert`. -/

def ucountAux (s : RState) : Nat → Nat
  | 0 => 0
  | n + 1 => ucountAux s n + (if committedIn s n then 0 else 1)

def ucount (s : RState) : Nat := ucountAux s s.length

theorem ucountAux_le (s : RState) : ∀ n, ucountAux s n ≤ n
  | 0 => Nat.le_refl 0
  | n + 1 => by
    unfold ucountAux
    have := ucountAux_le s n
    split <;> omega

theorem ite_flag_false : (if (false : Bool) = true then (0 : Nat) else 1) = 1 := rfl

theorem ite_flag_true : (if (true : Bool) = true then (0 : Nat) else 1) = 0 := rfl

theorem ucountAux_mono {s t : RState}
    (h : ∀ x : Nat, committedIn s x = true → committedIn t x = true) :
    ∀ n, ucountAux t n ≤ ucountAux s n
  | 0 => Nat.le_refl 0
  | n + 1 => by
    unfold ucountAux
    have hrec := ucountAux_mono h n
    by_cases hc : committedIn s n = true
    · rw [hc, h n hc]
      omega
    · have : committedIn s n = false := by
        cases hx : committedIn s n
        · rfl
        · exact absurd hx hc
      rw [this, ite_flag_false]
      split <;> omega

theorem ucountAux_congr {s t : RState} :
    ∀ n, (∀ x : Nat, x < n → committedIn t x = committedIn s x) →
      ucountAux t n = ucountAux s n
  | 0, _ => rfl
  | n + 1, h => by
    unfold ucountAux
    rw [ucountAux_congr n (fun x hx => h x (Nat.lt_succ_of_lt hx)),
      h n (Nat.lt_succ_self n)]

theorem ucountAux_commit {s : RState} {r : Nat} (hu : committedIn s r = false) :
    ∀ n, r < n → ucountAux (commit s r) n + 1 = ucountAux s n
  | n + 1, h => by
    unfold ucountAux
    by_cases hr : r = n
    · subst hr
      have heq : ucountAux (commit s r) r = ucountAux s r :=
        ucountAux_congr r (fun x hx => by
          rw [committedIn, getRec_commit_ne s r x (Nat.ne_of_lt hx)]
          rfl)
      rw [heq, committedIn_commit_self, hu, ite_flag_false, ite_flag_true]
    · have hlt : r < n := Nat.lt_of_le_of_ne (Nat.le_of_lt_succ h) hr
      have hne : committedIn (commit s r) n = committedIn s n := by
        rw [committedIn, getRec_commit_ne s r n (fun hx => hr hx.symm)]
        rfl
      rw [hne, ← ucountAux_commit hu n hlt]
      split <;> omega

theorem ucountAux_pos {s : RState} {r : Nat} (hu : committedIn s r = false) :
    ∀ n, r < n → 1 ≤ ucountAux s n
  | n + 1, h => by
    unfold ucountAux
    by_cases hr : r = n
    · subst hr
      rw [hu, ite_flag_false]
      omega
    · have hlt : r < n := Nat.lt_of_le_of_ne (Nat.le_of_lt_succ h) hr
      have := ucountAux_pos hu n hlt
      split <;> omega

theorem uncommitted_lt_length {s : RState} {r : Nat}
    (hu : committedIn s r = false) : r < s.length := by
  by_contra h
  have hoob : s.length ≤ r := Nat.le_of_not_lt h
  rw [committedIn, getRec, getD_oob _ _ _ hoob] at hu
  simp [defaultRec] at hu

theorem ucount_mono {s t : RState} (h : Mono s t) : ucount t ≤ ucount s := by
  unfold ucount
  rw [h.1.1]
  exact ucountAux_mono h.2 s.length

theorem ucount_commit {s : RState} {r : Nat} (hu : committedIn s r = false) :
    ucount (commit s r) + 1 = ucount s := by
  unfold ucount
  rw [length_commit]
  exact ucountAux_commit hu s.length (uncommitted_lt_length hu)

theorem ucount_pos {s : RState} {r : Nat} (hu : committedIn s r = false) :
    1 ≤ ucount s :=
  ucountAux_pos hu s.length (uncommitted_lt_length hu)

theorem ucount_le_length (s : RState) : ucount s ≤ s.length :=
  ucountAux_le s s.length

/-! Lemmas about the chunk map: membership, sortedness, duplicate-freedom. -/

theorem keyMem_mapInsert_iff (c : RecordList) (k : Int) (v : Nat) (q : Int) :
    keyMem (mapInsert c k v) q = true ↔ (keyMem c q = true ∨ k = q) := by
  induction c with
  | nil => simp [mapInsert, keyMem]
  | cons kv rest ih =>
    obtain ⟨k1, v1⟩ := kv
    by_cases h1 : k < k1
    · rw [mapInsert, if_pos h1]
      simp only [keyMem, List.any_cons, Bool.or_eq_true, beq_iff_eq]
      tauto
    · by_cases h2 : k = k1
      · rw [mapInsert, if_neg h1, if_pos h2]
        simp only [keyMem, List.any_cons, Bool.or_eq_true, beq_iff_eq]
        subst h2
        tauto
      · rw [mapInsert, if_neg h1, if_neg h2]
        simp only [keyMem, List.any_cons, Bool.or_eq_true, beq_iff_eq]
        simp only [keyMem, Bool.or_eq_true, beq_iff_eq] at ih
        tauto

theorem keyMem_mono_mapInsert (c : RecordList) (k : Int) (v : Nat) (q : Int)
    (h : keyMem c q = true) : keyMem (mapInsert c k v) q = true :=
  (keyMem_mapInsert_iff c k v q).mpr (Or.inl h)

theorem keyMem_mapInsertRange_iff (c xs : RecordList) (q : Int) :
    keyMem (mapInsertRange c xs) q = true ↔
      (keyMem c q = true ∨ keyMem xs q = true) := by
  induction xs generalizing c with
  | nil => simp [mapInsertRange, keyMem]
  | cons kv rest ih =>
    obtain ⟨k, v⟩ := kv
    have hstep : mapInsertRange c ((k, v) :: rest) = mapInsertRange (mapInsert c k v) rest := rfl
    rw [hstep, ih, keyMem_mapInsert_iff]
    simp only [keyMem, List.any_cons, Bool.or_eq_true, beq_iff_eq]
    tauto

theorem mem_mapInsert {c : RecordList} {k : Int} {v : Nat} {a : Int × Nat}
    (h : a ∈ mapInsert c k v) : a ∈ c ∨ a = (k, v) := by
  induction c with
  | nil =>
    simp [mapInsert] at h
    exact Or.inr h
  | cons kv rest ih =>
    obtain ⟨k1, v1⟩ := kv
    by_cases h1 : k < k1
    · rw [mapInsert, if_pos h1] at h
      rcases List.mem_cons.mp h with heq | hm
      · exact Or.inr heq
      · exact Or.inl hm
    · by_cases h2 : k = k1
      · rw [mapInsert, if_neg h1, if_pos h2] at h
        exact Or.inl h
      · rw [mapInsert, if_neg h1, if_neg h2] at h
        rcases List.mem_cons.mp h with heq | hm
        · exact Or.inl (heq ▸ List.mem_cons_self _ _)
        · rcases ih hm with hin | heq
          · exact Or.inl (List.mem_cons_of_mem _ hin)
          · exact Or.inr heq

theorem sorted_mapInsert {c : RecordList} {k : Int} {v : Nat}
    (h : sortedKeys c = true) : sortedKeys (mapInsert c k v) = true := by
  induction c with
  | nil => rfl
  | cons kv rest ih =>
    obtain ⟨k1, v1⟩ := kv
    rw [sortedKeys, Bool.and_eq_true, List.all_eq_true] at h
    obtain ⟨hall, hrest⟩ := h
    by_cases h1 : k < k1
    · rw [mapInsert, if_pos h1, sortedKeys, Bool.and_eq_true, List.all_eq_true]
      refine ⟨fun kv2 hm => ?_, ?_⟩
      · rcases List.mem_cons.mp hm with heq | hm2
        · subst heq
          exact decide_eq_true h1
        · have := of_decide_eq_true (hall kv2 hm2)
          exact decide_eq_true (lt_trans h1 this)
      · rw [sortedKeys, Bool.and_eq_true, List.all_eq_true]
        exact ⟨hall, hrest⟩
    · by_cases h2 : k = k1
      · rw [mapInsert, if_neg h1, if_pos h2, sortedKeys, Bool.and_eq_true, List.all_eq_true]
        exact ⟨hall, hrest⟩
      · rw [mapInsert, if_neg h1, if_neg h2, sortedKeys, Bool.and_eq_true, List.all_eq_true]
        have hgt : k1 < k := by
          rcases lt_trichotomy k k1 with hx | hx | hx
          · exact absurd hx h1
          · exact absurd hx h2
          · exact hx
        refine ⟨fun kv2 hm => ?_, ih hrest⟩
        rcases mem_mapInsert hm with hin | heq
        · exact hall kv2 hin
        · subst heq
          exact decide_eq_true hgt

theorem sorted_mapInsertRange (xs : RecordList) :
    ∀ c : RecordList, sortedKeys c = true → sortedKeys (mapInsertRange c xs) = true := by
  induction xs with
  | nil => exact fun c h => h
  | cons kv rest ih =>
    intro c h
    exact ih (mapInsert c kv.1 kv.2) (sorted_mapInsert h)

theorem nodup_keys_of_sorted {c : RecordList} (h : sortedKeys c = true) :
    (c.map Prod.fst).Nodup := by
  induction c with
  | nil => simp
  | cons kv rest ih =>
    obtain ⟨k1, v1⟩ := kv
    rw [sortedKeys, Bool.and_eq_true, List.all_eq_true] at h
    obtain ⟨hall, hrest⟩ := h
    rw [List.map_cons, List.nodup_cons]
    refine ⟨fun hmem => ?_, ih hrest⟩
    rcases List.mem_map.mp hmem with ⟨kv2, hm, hk⟩
    have := of_decide_eq_true (hall kv2 hm)
    rw [hk] at this
    exact lt_irrefl _ this

/-! Behavioural specification of `Insert`, proved by induction on the
depth budget.  `InsStep s c t d` packages everything a (possibly nested)
`Insert` activation guarantees between entry state `(s, c)` and exit
state `(t, d)`. -/

def NewPar (s t : RState) : Prop :=
  ∀ x : Nat, committedIn s x = false → committedIn t x = true →
    ∀ p ∈ (getRec s x).parents, committedIn t p = true

def NewSub (s t : RState) : Prop :=
  ∀ x : Nat, committedIn s x = false → committedIn t x = true →
    ∀ q ∈ (getRec s x).subResources, committedIn t q = true

def Prov (s : RState) (c : RecordList) (t : RState) (d : RecordList) : Prop :=
  ∀ k : Int, keyMem d k = true →
    keyMem c k = true ∨
      ∃ x : Nat, committedIn s x = false ∧ committedIn t x = true ∧
        keyMem (getRec s x).chunks k = true

structure InsStep (s : RState) (c : RecordList) (t : RState) (d : RecordList) : Prop where
  mono : Mono s t
  keys : ∀ k : Int, keyMem c k = true → keyMem d k = true
  sorted : sortedKeys c = true → sortedKeys d = true
  newpar : NewPar s t
  newsub : NewSub s t
  prov : Prov s c t d

theorem InsStep.base (s : RState) (c : RecordList) : InsStep s c s c := by
  refine ⟨Mono.refl s, fun _ h => h, fun h => h, ?_, ?_, fun k hk => Or.inl hk⟩
  · intro x h1 h2
    rw [h1] at h2
    simp at h2
  · intro x h1 h2
    rw [h1] at h2
    simp at h2

theorem InsStep.scomp {s t u : RState} {c d e : RecordList}
    (h1 : InsStep s c t d) (h2 : InsStep t d u e) : InsStep s c u e := by
  refine ⟨h1.mono.mcomp h2.mono, fun k hk => h2.keys k (h1.keys k hk),
    fun hs => h2.sorted (h1.sorted hs), ?_, ?_, ?_⟩
  · intro x hxf hxt p hp
    cases hmid : committedIn t x
    · have hp2 : p ∈ (getRec t x).parents := by
        rw [h1.mono.parents_eq x]
        exact hp
      exact h2.newpar x hmid hxt p hp2
    · exact h2.mono.2 p (h1.newpar x hxf hmid p hp)
  · intro x hxf hxt q hq
    cases hmid : committedIn t x
    · have hq2 : q ∈ (getRec t x).subResources := by
        rw [h1.mono.subResources_eq x]
        exact hq
      exact h2.newsub x hmid hxt q hq2
    · exact h2.mono.2 q (h1.newsub x hxf hmid q hq)
  · intro k hk
    rcases h2.prov k hk with hd | ⟨x, hxf, hxt, hck⟩
    · rcases h1.prov k hd with hc | ⟨x, hxf, hxt, hck⟩
      · exact Or.inl hc
      · exact Or.inr ⟨x, hxf, h2.mono.2 x hxt, hck⟩
    · refine Or.inr ⟨x, h1.mono.not_committed x hxf, hxt, ?_⟩
      rw [← h1.mono.chunks_eq x]
      exact hck

theorem foldInsGuard_spec (f : RState → RecordList → Nat → Option (RState × RecordList))
    (hf : ∀ s c p s1 c1, f s c p = some (s1, c1) →
      InsStep s c s1 c1 ∧ committedIn s1 p = true) :
    ∀ (l : List Nat) (s : RState) (c : RecordList) (t : RState) (d : RecordList),
      foldInsGuard f s c l = some (t, d) →
      InsStep s c t d ∧ ∀ p ∈ l, committedIn t p = true := by
  intro l
  induction l with
  | nil =>
    intro s c t d h
    obtain ⟨rfl, rfl⟩ : s = t ∧ c = d := by simpa [foldInsGuard] using h
    exact ⟨InsStep.base s c, by simp⟩
  | cons p rest ih =>
    intro s c t d h
    rw [foldInsGuard] at h
    by_cases hc : committedIn s p = true
    · rw [if_pos hc] at h
      obtain ⟨hstep, hall⟩ := ih s c t d h
      refine ⟨hstep, fun q hq => ?_⟩
      rcases List.mem_cons.mp hq with rfl | hm
      · exact hstep.mono.2 q hc
      · exact hall q hm
    · rw [if_neg hc] at h
      cases hcall : f s c p with
      | none =>
        rw [hcall] at h
        exact Option.noConfusion h
      | some out =>
        obtain ⟨s1, c1⟩ := out
        rw [hcall] at h
        obtain ⟨hstep1, hp1⟩ := hf s c p s1 c1 hcall
        obtain ⟨hstep2, hall⟩ := ih s1 c1 t d h
        refine ⟨hstep1.scomp hstep2, fun q hq => ?_⟩
        rcases List.mem_cons.mp hq with rfl | hm
        · exact hstep2.mono.2 q hp1
        · exact hall q hm

theorem foldIns_spec (f : RState → RecordList → Nat → Option (RState × RecordList))
    (hf : ∀ s c p s1 c1, f s c p = some (s1, c1) →
      InsStep s c s1 c1 ∧ committedIn s1 p = true) :
    ∀ (l : List Nat) (s : RState) (c : RecordList) (t : RState) (d : RecordList),
      foldIns f s c l = some (t, d) →
      InsStep s c t d ∧ ∀ q ∈ l, committedIn t q = true := by
  intro l
  induction l with
  | nil =>
    intro s c t d h
    obtain ⟨rfl, rfl⟩ : s = t ∧ c = d := by simpa [foldIns] using h
    exact ⟨InsStep.base s c, by simp⟩
  | cons q rest ih =>
    intro s c t d h
    rw [foldIns] at h
    cases hcall : f s c q with
    | none =>
      rw [hcall] at h
      exact Option.noConfusion h
    | some out =>
      obtain ⟨s1, c1⟩ := out
      rw [hcall] at h
      obtain ⟨hstep1, hq1⟩ := hf s c q s1 c1 hcall
      obtain ⟨hstep2, hall⟩ := ih s1 c1 t d h
      refine ⟨hstep1.scomp hstep2, fun x hx => ?_⟩
      rcases List.mem_cons.mp hx with rfl | hm
      · exact hstep2.mono.2 x hq1
      · exact hall x hm

theorem insertF_spec (fuel : Nat) :
    ∀ (s : RState) (c : RecordList) (r : Nat) (t : RState) (d : RecordList),
      insertF fuel s c r = some (t, d) →
      InsStep s c t d ∧ committedIn t r = true ∧
        (∀ p ∈ (getRec s r).parents, committedIn t p = true) ∧
        (committedIn s r = false →
          ∀ k : Int, keyMem (getRec s r).chunks k = true → keyMem d k = true) := by
  induction fuel with
  | zero =>
    intro s c r t d h
    exact Option.noConfusion h
  | succ fuel ih =>
    intro s c r t d h
    rw [insertF] at h
    have hf : ∀ s0 c0 p s1 c1, insertF fuel s0 c0 p = some (s1, c1) →
        InsStep s0 c0 s1 c1 ∧ committedIn s1 p = true :=
      fun s0 c0 p s1 c1 hcall =>
        ⟨(ih s0 c0 p s1 c1 hcall).1, (ih s0 c0 p s1 c1 hcall).2.1⟩
    cases hg : foldInsGuard (insertF fuel) (commit s r) c (getRec s r).parents with
    | none =>
      rw [hg] at h
      exact Option.noConfusion h
    | some out =>
      obtain ⟨s2, c2⟩ := out
      rw [hg] at h
      have h9 : (if (getRec s r).dataWritten = true then some (s2, c2)
          else foldIns (insertF fuel) s2 (mapInsertRange c2 (getRec s r).chunks)
            (getRec s r).subResources) = some (t, d) := h
      clear h
      obtain ⟨G, Gall⟩ :=
        foldInsGuard_spec (insertF fuel) hf (getRec s r).parents (commit s r) c s2 c2 hg
      by_cases hprev : (getRec s r).dataWritten = true
      · rw [if_pos hprev] at h9
        obtain ⟨rfl, rfl⟩ : s2 = t ∧ c2 = d := by simpa using h9
        have hcs : commit s r = s := commit_of_committed s r hprev
        rw [hcs] at G
        refine ⟨G, G.mono.2 r hprev, Gall, fun hff => ?_⟩
        rw [committedIn, hprev] at hff
        exact absurd hff (by simp)
      · rw [if_neg hprev] at h9
        have hprevf : committedIn s r = false := by
          rw [committedIn]
          cases hx : (getRec s r).dataWritten
          · rfl
          · exact absurd hx hprev
        obtain ⟨S, Sall⟩ :=
          foldIns_spec (insertF fuel) hf (getRec s r).subResources s2
            (mapInsertRange c2 (getRec s r).chunks) t d h9
        have M1 : Mono s (commit s r) := mono_commit s r
        have Mmid : Mono s s2 := M1.mcomp G.mono
        have Mfin : Mono s t := Mmid.mcomp S.mono
        have hcomr : committedIn t r = true :=
          S.mono.2 r (G.mono.2 r (committedIn_commit_self s r))
        have hmerge : ∀ k : Int, keyMem c2 k = true →
            keyMem (mapInsertRange c2 (getRec s r).chunks) k = true :=
          fun k hk => (keyMem_mapInsertRange_iff _ _ k).mpr (Or.inl hk)
        have hown : ∀ k : Int, keyMem (getRec s r).chunks k = true →
            keyMem (mapInsertRange c2 (getRec s r).chunks) k = true :=
          fun k hk => (keyMem_mapInsertRange_iff _ _ k).mpr (Or.inr hk)
        have hparfin : ∀ p ∈ (getRec s r).parents, committedIn t p = true :=
          fun p hp => S.mono.2 p (Gall p hp)
        refine ⟨⟨Mfin, ?_, ?_, ?_, ?_, ?_⟩, hcomr, hparfin,
          fun _ k hk => S.keys k (hown k hk)⟩
        · exact fun k hk => S.keys k (hmerge k (G.keys k hk))
        · exact fun hs => S.sorted (sorted_mapInsertRange _ _ (G.sorted hs))
        · intro x hxf hxt p hp
          by_cases hxr : x = r
          · subst hxr
            exact hparfin p hp
          · have hxf1 : committedIn (commit s r) x = false := by
              rw [committedIn, getRec_commit_ne s r x hxr]
              exact hxf
            cases hmid : committedIn s2 x
            · have hp2 : p ∈ (getRec s2 x).parents := by
                rw [Mmid.parents_eq x]
                exact hp
              exact S.newpar x hmid hxt p hp2
            · have hp1 : p ∈ (getRec (commit s r) x).parents := by
                rw [M1.parents_eq x]
                exact hp
              exact S.mono.2 p (G.newpar x hxf1 hmid p hp1)
        · intro x hxf hxt q hq
          by_cases hxr : x = r
          · subst hxr
            exact Sall q hq
          · have hxf1 : committedIn (commit s r) x = false := by
              rw [committedIn, getRec_commit_ne s r x hxr]
              exact hxf
            cases hmid : committedIn s2 x
            · have hq2 : q ∈ (getRec s2 x).subResources := by
                rw [Mmid.subResources_eq x]
                exact hq
              exact S.newsub x hmid hxt q hq2
            · have hq1 : q ∈ (getRec (commit s r) x).subResources := by
                rw [M1.subResources_eq x]
                exact hq
              exact S.mono.2 q (G.newsub x hxf1 hmid q hq1)
        · intro k hk
          rcases S.prov k hk with hm | ⟨x, hxf, hxt, hck⟩
          · rcases (keyMem_mapInsertRange_iff c2 (getRec s r).chunks k).mp hm with
              h2 | hchunk
            · rcases G.prov k h2 with h3 | ⟨x, hxf, hxt, hck⟩
              · exact Or.inl h3
              · have hxr : x ≠ r := by
                  intro he
                  rw [he, committedIn_commit_self] at hxf
                  exact absurd hxf (by simp)
                have hxfs : committedIn s x = false := by
                  rw [committedIn, ← getRec_commit_ne s r x hxr]
                  exact hxf
                refine Or.inr ⟨x, hxfs, S.mono.2 x hxt, ?_⟩
                rw [← M1.chunks_eq x]
                exact hck
            · exact Or.inr ⟨r, hprevf, hcomr, hchunk⟩
          · refine Or.inr ⟨x, Mmid.not_committed x hxf, hxt, ?_⟩
            rw [← Mmid.chunks_eq x]
            exact hck

/-! Termination: the measure `2 * ucount + (1 when the root is already
committed)` strictly bounds the recursion depth that `Insert` needs. -/

theorem ite_cm_false : (if (false : Bool) = true then (1 : Nat) else 0) = 0 := rfl

theorem ite_cm_true : (if (true : Bool) = true then (1 : Nat) else 0) = 1 := rfl

theorem foldInsGuard_total (fuel B : Nat)
    (hf : ∀ (s0 : RState) (c0 : RecordList) (p : Nat), ucount s0 ≤ B →
      committedIn s0 p = false → ∃ out, insertF fuel s0 c0 p = some out)
    (hmono : ∀ (s0 : RState) (c0 : RecordList) (p : Nat) s1 c1,
      insertF fuel s0 c0 p = some (s1, c1) → Mono s0 s1) :
    ∀ (l : List Nat) (s : RState) (c : RecordList), ucount s ≤ B →
      ∃ t d, foldInsGuard (insertF fuel) s c l = some (t, d) ∧ ucount t ≤ B := by
  intro l
  induction l with
  | nil =>
    intro s c hs
    exact ⟨s, c, rfl, hs⟩
  | cons p rest ih =>
    intro s c hs
    by_cases hc : committedIn s p = true
    · rw [foldInsGuard, if_pos hc]
      exact ih s c hs
    · have hcf : committedIn s p = false := by
        cases hx : committedIn s p
        · rfl
        · exact absurd hx hc
      obtain ⟨out, hout⟩ := hf s c p hs hcf
      obtain ⟨s1, c1⟩ := out
      have hs1 : ucount s1 ≤ B := le_trans (ucount_mono (hmono s c p s1 c1 hout)) hs
      obtain ⟨t, d, hfold, ht⟩ := ih s1 c1 hs1
      refine ⟨t, d, ?_, ht⟩
      rw [foldInsGuard, if_neg hc, hout]
      exact hfold

theorem foldIns_total (fuel B : Nat)
    (hf : ∀ (s0 : RState) (c0 : RecordList) (q : Nat), ucount s0 ≤ B →
      ∃ out, insertF fuel s0 c0 q = some out)
    (hmono : ∀ (s0 : RState) (c0 : RecordList) (p : Nat) s1 c1,
      insertF fuel s0 c0 p = some (s1, c1) → Mono s0 s1) :
    ∀ (l : List Nat) (s : RState) (c : RecordList), ucount s ≤ B →
      ∃ t d, foldIns (insertF fuel) s c l = some (t, d) ∧ ucount t ≤ B := by
  intro l
  induction l with
  | nil =>
    intro s c hs
    exact ⟨s, c, rfl, hs⟩
  | cons q rest ih =>
    intro s c hs
    obtain ⟨out, hout⟩ := hf s c q hs
    obtain ⟨s1, c1⟩ := out
    have hs1 : ucount s1 ≤ B := le_trans (ucount_mono (hmono s c q s1 c1 hout)) hs
    obtain ⟨t, d, hfold, ht⟩ := ih s1 c1 hs1
    refine ⟨t, d, ?_, ht⟩
    rw [foldIns, hout]
    exact hfold

theorem insertF_total (fuel : Nat) :
    ∀ (s : RState) (c : RecordList) (r : Nat),
      2 * ucount s + (if committedIn s r = true then 1 else 0) < fuel →
      ∃ out, insertF fuel s c r = some out := by
  induction fuel with
  | zero =>
    intro s c r h
    exact absurd h (Nat.not_lt_zero _)
  | succ fuel ih =>
    intro s c r h
    have hmono : ∀ (s0 : RState) (c0 : RecordList) (p : Nat) s1 c1,
        insertF fuel s0 c0 p = some (s1, c1) → Mono s0 s1 :=
      fun s0 c0 p s1 c1 hcall => ((insertF_spec fuel s0 c0 p s1 c1 hcall).1).mono
    by_cases hprev : committedIn s r = true
    · have hcs : commit s r = s := commit_of_committed s r hprev
      rw [if_pos hprev] at h
      have hf : ∀ (s0 : RState) (c0 : RecordList) (p : Nat), ucount s0 ≤ ucount s →
          committedIn s0 p = false → ∃ out, insertF fuel s0 c0 p = some out := by
        intro s0 c0 p hs0 hp
        apply ih
        rw [hp, ite_cm_false]
        omega
      obtain ⟨s2, c2, hfold, _⟩ :=
        foldInsGuard_total fuel (ucount s) hf hmono (getRec s r).parents (commit s r) c
          (by rw [hcs])
      refine ⟨(s2, c2), ?_⟩
      rw [insertF, hfold]
      show (if (getRec s r).dataWritten = true then some (s2, c2)
        else foldIns (insertF fuel) s2 (mapInsertRange c2 (getRec s r).chunks)
          (getRec s r).subResources) = some (s2, c2)
      rw [if_pos (show (getRec s r).dataWritten = true from hprev)]
    · have hprevf : committedIn s r = false := by
        cases hx : committedIn s r
        · rfl
        · exact absurd hx hprev
      rw [hprevf, ite_cm_false] at h
      have hu1 : 1 ≤ ucount s := ucount_pos hprevf
      have hcc : ucount (commit s r) + 1 = ucount s := ucount_commit hprevf
      have hf : ∀ (s0 : RState) (c0 : RecordList) (p : Nat), ucount s0 ≤ ucount s - 1 →
          committedIn s0 p = false → ∃ out, insertF fuel s0 c0 p = some out := by
        intro s0 c0 p hs0 hp
        apply ih
        rw [hp, ite_cm_false]
        omega
      have hf2 : ∀ (s0 : RState) (c0 : RecordList) (q : Nat), ucount s0 ≤ ucount s - 1 →
          ∃ out, insertF fuel s0 c0 q = some out := by
        intro s0 c0 q hs0
        apply ih
        cases hq : committedIn s0 q
        · rw [ite_cm_false]
          omega
        · rw [ite_cm_true]
          omega
      obtain ⟨s2, c2, hfold, hs2⟩ :=
        foldInsGuard_total fuel (ucount s - 1) hf hmono (getRec s r).parents (commit s r) c
          (by omega)
      obtain ⟨t, d, hfold2, _⟩ :=
        foldIns_total fuel (ucount s - 1) hf2 hmono (getRec s r).subResources s2
          (mapInsertRange c2 (getRec s r).chunks) hs2
      refine ⟨(t, d), ?_⟩
      rw [insertF, hfold]
      show (if (getRec s r).dataWritten = true then some (s2, c2)
        else foldIns (insertF fuel) s2 (mapInsertRange c2 (getRec s r).chunks)
          (getRec s r).subResources) = some (t, d)
      rw [if_neg (show ¬(getRec s r).dataWritten = true from hprev)]
      exact hfold2

/-- Totality at the canonical budget: `Insert` always succeeds when given
depth `2 * length + 2`, whatever the graph looks like. -/
theorem resolve_total (s : RState) (c : RecordList) (r : Nat) :
    ∃ out, resolve s c r = some out := by
  unfold resolve insertBound
  apply insertF_total
  have h1 : ucount s ≤ s.length := ucount_le_length s
  cases hq : committedIn s r
  · rw [ite_cm_false]
    omega
  · rw [ite_cm_true]
    omega

/-! Idempotence: resolving an already-committed record whose direct
parents are all committed is a complete no-op. -/

theorem foldInsGuard_skip (f : RState → RecordList → Nat → Option (RState × RecordList)) :
    ∀ (l : List Nat) (s : RState) (c : RecordList),
      (∀ p ∈ l, committedIn s p = true) → foldInsGuard f s c l = some (s, c) := by
  intro l
  induction l with
  | nil => intro s c _; rfl
  | cons p rest ih =>
    intro s c h
    rw [foldInsGuard, if_pos (h p (List.mem_cons_self p rest))]
    exact ih s c (fun q hq => h q (List.mem_cons_of_mem p hq))

theorem insertF_committed_noop (fuel : Nat) (s : RState) (c : RecordList) (r : Nat)
    (h1 : committedIn s r = true)
    (h2 : ∀ p ∈ (getRec s r).parents, committedIn s p = true) :
    insertF (fuel + 1) s c r = some (s, c) := by
  rw [insertF]
  have hcs : commit s r = s := commit_of_committed s r h1
  rw [hcs, foldInsGuard_skip _ _ s c h2]
  show (if (getRec s r).dataWritten = true then some (s, c)
    else foldIns (insertF fuel) s (mapInsertRange c (getRec s r).chunks)
      (getRec s r).subResources) = some (s, c)
  rw [if_pos (show (getRec s r).dataWritten = true from h1)]

theorem resolve_second (s : RState) (c : RecordList) (r : Nat) (t : RState)
    (d : RecordList) (h : resolve s c r = some (t, d)) :
    resolve t d r = some (t, d) := by
  have spec := insertF_spec (insertBound s) s c r t d h
  have hcom : committedIn t r = true := spec.2.1
  have hpar : ∀ p ∈ (getRec t r).parents, committedIn t p = true := by
    rw [spec.1.mono.parents_eq r]
    exact spec.2.2.1
  unfold resolve
  rw [show insertBound t = (2 * t.length + 1) + 1 from rfl]
  exact insertF_committed_noop _ t d r hcom hpar

/-- C1: for every record `r` and chunk collection `c`, running resolve a
second time in sequence returns exactly the state and collection of the
first run, and the final collection is key-sorted with no duplicate
chunk-id keys (provided the incoming collection satisfies the `std::map`
ordering invariant).  The proof needs no acyclicity assumption: the first
run commits `r` and all of its direct parents, so the second run's parent
loop skips every parent and the latch check suppresses the chunk merge. -/
theorem c1_resolve_idempotent (s : RState) (c : RecordList) (r : Nat)
    (t : RState) (d : RecordList)
    (h : resolve s c r = some (t, d)) (hc : sortedKeys c = true) :
    resolve t d r = some (t, d) ∧ sortedKeys d = true ∧ (d.map Prod.fst).Nodup := by
  have spec := insertF_spec (insertBound s) s c r t d h
  have hd : sortedKeys d = true := spec.1.sorted hc
  exact ⟨resolve_second s c r t d h, hd, nodup_keys_of_sorted hd⟩

theorem c1_resolve_idempotent_witness :
    resolve [{ freshRecord with dataWritten := true }] [] 0 =
        some ([{ freshRecord with dataWritten := true }], []) ∧
      sortedKeys [] = true ∧ (([] : RecordList).map Prod.fst).Nodup :=
  c1_resolve_idempotent [freshRecord] [] 0 [{ freshRecord with dataWritten := true }] []
    (by decide) (by decide)

/-- Record graph refuting the depth bound of C2: five uncommitted
records, where record 1 owns record 0 as a subresource and record 3 owns
record 2, while 0 depends on parents 1 and 2 and record 2 depends on
parents 3 and 4. -/
def exC2 : RState :=
  [ { dataWritten := false, chunks := [], parents := [1, 2], subResources := [],
      shadow := [], contexts := [], dataPtr := 0 },
    { dataWritten := false, chunks := [], parents := [], subResources := [0],
      shadow := [], contexts := [], dataPtr := 0 },
    { dataWritten := false, chunks := [], parents := [3, 4], subResources := [],
      shadow := [], contexts := [], dataPtr := 0 },
    { dataWritten := false, chunks := [], parents := [], subResources := [2],
      shadow := [], contexts := [], dataPtr := 0 },
    { dataWritten := false, chunks := [], parents := [], subResources := [],
      shadow := [], contexts := [], dataPtr := 0 } ]

/-- C2 counterexample: on this 5-record graph, `Insert` needs nesting
depth 7 — `insertF` fails with budget 5 (the record count) and even with
budget 6, and first succeeds at 7.  A record can be re-entered once more
as an already-committed subresource, so the depth is not bounded by the
number of records. -/
theorem c2_depth_counterexample :
    exC2.length = 5 ∧
    insertF 5 exC2 [] 0 = none ∧
    insertF 6 exC2 [] 0 = none ∧
    (insertF 7 exC2 [] 0).isSome = true := by decide

/-- C2 (amended): `Insert` sets the commit latch before the parents
recursion (the state every parent call sees has the root committed), and
resolve terminates on every record graph — cyclic or not — when given
recursion depth `2 * N + 2` for `N` records, instead of the claimed
bound `N`. -/
theorem c2_amended :
    (∀ (s : RState) (r : Nat), committedIn (commit s r) r = true) ∧
    (∀ (s : RState) (c : RecordList) (r : Nat), (resolve s c r).isSome = true) := by
  refine ⟨committedIn_commit_self, fun s c r => ?_⟩
  obtain ⟨out, hout⟩ := resolve_total s c r
  rw [hout]
  rfl

/-- Record graph refuting C3: record 0 is uncommitted with parent 1;
record 1 is already committed with parent 2; record 2 is uncommitted. -/
def exC3 : RState :=
  [ { dataWritten := false, chunks := [], parents := [1], subResources := [],
      shadow := [], contexts := [], dataPtr := 0 },
    { dataWritten := true, chunks := [], parents := [2], subResources := [],
      shadow := [], contexts := [], dataPtr := 0 },
    { dataWritten := false, chunks := [], parents := [], subResources := [],
      shadow := [], contexts := [], dataPtr := 0 } ]

/-- C3 counterexample: in the acyclic graph `0 → 1 → 2` (parent edges),
record 2 is a transitive parent of record 0 reached only through the
already-committed parent 1; after resolving record 0, record 0 is
committed but record 2 is still uncommitted, because the parent loop
skips the committed record 1 and never reaches 2. -/
theorem c3_counterexample :
    (getRec exC3 0).parents = [1] ∧
    (getRec exC3 1).parents = [2] ∧
    (getRec exC3 2).parents = [] ∧
    committedIn exC3 0 = false ∧
    committedIn exC3 1 = true ∧
    committedIn exC3 2 = false ∧
    (resolve exC3 [] 0).map (fun out => (committedIn out.1 0, committedIn out.1 2)) =
      some (true, false) := by decide

/-- C3 (amended): after resolve on `r`, the record `r` is committed,
every direct parent of `r` is committed, and every record newly
committed by the call has all its direct parents and all its
subresources committed.  Parents reachable only through a parent that
was already committed before the call can remain uncommitted. -/
theorem c3_amended (s : RState) (c : RecordList) (r : Nat) (t : RState)
    (d : RecordList) (h : resolve s c r = some (t, d)) :
    committedIn t r = true ∧
    (∀ p ∈ (getRec s r).parents, committedIn t p = true) ∧
    (∀ x : Nat, committedIn s x = false → committedIn t x = true →
      (∀ p ∈ (getRec s x).parents, committedIn t p = true) ∧
      (∀ q ∈ (getRec s x).subResources, committedIn t q = true)) := by
  have spec := insertF_spec (insertBound s) s c r t d h
  exact ⟨spec.2.1, spec.2.2.1,
    fun x h1 h2 => ⟨spec.1.newpar x h1 h2, spec.1.newsub x h1 h2⟩⟩

theorem c3_amended_witness :
    committedIn [{ freshRecord with dataWritten := true }] 0 = true :=
  (c3_amended [freshRecord] [] 0 [{ freshRecord with dataWritten := true }] []
    (by decide)).1

/-- Record A of the C5 scenario: holds chunk 20, depends on record B. -/
def exA : RecordData :=
  { dataWritten := false, chunks := [(20, 920)], parents := [1], subResources := [],
    shadow := [], contexts := [], dataPtr := 0 }

/-- Record B of the C5 scenario: holds chunks 10 and 11, no parents. -/
def exB : RecordData :=
  { dataWritten := false, chunks := [(10, 910), (11, 911)], parents := [],
    subResources := [], shadow := [], contexts := [], dataPtr := 0 }

/-- The C5 graph after resolving A: both latches set. -/
def exC5post : RState :=
  [{ exA with dataWritten := true }, { exB with dataWritten := true }]

/-- C5: in the concrete scenario (A holds chunk 20 and depends on B,
which holds chunks 10 and 11, both uncommitted, empty collection),
resolving A yields the collection `10, 11, 20` in that relative order,
both latches end up true, and a second resolve of A returns the state
and collection unchanged. -/
theorem c5_scenario :
    resolve [exA, exB] [] 0 = some (exC5post, [(10, 910), (11, 911), (20, 920)]) ∧
    committedIn exC5post 0 = true ∧
    committedIn exC5post 1 = true ∧
    resolve exC5post [(10, 910), (11, 911), (20, 920)] 0 =
      some (exC5post, [(10, 910), (11, 911), (20, 920)]) := by decide

/-- The C4 family of graphs: record 0 (latch `b`, chunks `ch0`) has
exactly the two parents P1 = record 1 (already committed, chunks `ch1`)
and P2 = record 2 (uncommitted, chunks `ch2`). -/
def c4State (b : Bool) (ch0 ch1 ch2 : RecordList) : RState :=
  [ { dataWritten := b, chunks := ch0, parents := [1, 2], subResources := [],
      shadow := [], contexts := [], dataPtr := 0 },
    { dataWritten := true, chunks := ch1, parents := [], subResources := [],
      shadow := [], contexts := [], dataPtr := 0 },
    { dataWritten := false, chunks := ch2, parents := [], subResources := [],
      shadow := [], contexts := [], dataPtr := 0 } ]

/-- The C4 family after resolving record 0: all three latches set. -/
def c4Post (ch0 ch1 ch2 : RecordList) : RState :=
  [ { dataWritten := true, chunks := ch0, parents := [1, 2], subResources := [],
      shadow := [], contexts := [], dataPtr := 0 },
    { dataWritten := true, chunks := ch1, parents := [], subResources := [],
      shadow := [], contexts := [], dataPtr := 0 },
    { dataWritten := true, chunks := ch2, parents := [], subResources := [],
      shadow := [], contexts := [], dataPtr := 0 } ]

theorem c4_eval_committed (ch0 ch1 ch2 c : RecordList) :
    resolve (c4State true ch0 ch1 ch2) c 0 =
      some (c4Post ch0 ch1 ch2, mapInsertRange c ch2) := rfl

theorem c4_eval_uncommitted (ch0 ch1 ch2 c : RecordList) :
    resolve (c4State false ch0 ch1 ch2) c 0 =
      some (c4Post ch0 ch1 ch2, mapInsertRange (mapInsertRange c ch2) ch0) := rfl

/-- C4: resolving record 0, whose two parents are the committed P1 and
the uncommitted P2, recurses only into P2: every chunk key of P2 lands
in the final collection, while no chunk key of P1 does (whenever P1's
keys do not also occur in the initial collection or in the other
records' chunks).  This holds whether or not record 0 itself was already
committed. -/
theorem c4_committed_parent_skipped (b : Bool) (ch0 ch1 ch2 c : RecordList)
    (t : RState) (d : RecordList)
    (h : resolve (c4State b ch0 ch1 ch2) c 0 = some (t, d))
    (hdisj : ∀ k : Int, keyMem ch1 k = true →
      keyMem c k = false ∧ keyMem ch0 k = false ∧ keyMem ch2 k = false) :
    committedIn t 2 = true ∧
    (∀ k : Int, keyMem ch2 k = true → keyMem d k = true) ∧
    (∀ k : Int, keyMem ch1 k = true → keyMem d k = false) := by
  cases b
  · rw [c4_eval_uncommitted] at h
    obtain ⟨rfl, rfl⟩ : c4Post ch0 ch1 ch2 = t ∧
        mapInsertRange (mapInsertRange c ch2) ch0 = d := by simpa using h
    refine ⟨rfl, ?_, ?_⟩
    · intro k hk
      exact (keyMem_mapInsertRange_iff _ _ k).mpr
        (Or.inl ((keyMem_mapInsertRange_iff _ _ k).mpr (Or.inr hk)))
    · intro k hk
      obtain ⟨hc, h0, h2⟩ := hdisj k hk
      cases hx : keyMem (mapInsertRange (mapInsertRange c ch2) ch0) k
      · rfl
      · rcases (keyMem_mapInsertRange_iff _ _ k).mp hx with hy | hy
        · rcases (keyMem_mapInsertRange_iff _ _ k).mp hy with hz | hz
          · rw [hc] at hz; exact absurd hz (by simp)
          · rw [h2] at hz; exact absurd hz (by simp)
        · rw [h0] at hy; exact absurd hy (by simp)
  · rw [c4_eval_committed] at h
    obtain ⟨rfl, rfl⟩ : c4Post ch0 ch1 ch2 = t ∧ mapInsertRange c ch2 = d := by
      simpa using h
    refine ⟨rfl, ?_, ?_⟩
    · intro k hk
      exact (keyMem_mapInsertRange_iff _ _ k).mpr (Or.inr hk)
    · intro k hk
      obtain ⟨hc, h0, h2⟩ := hdisj k hk
      cases hx : keyMem (mapInsertRange c ch2) k
      · rfl
      · rcases (keyMem_mapInsertRange_iff _ _ k).mp hx with hy | hy
        · rw [hc] at hy; exact absurd hy (by simp)
        · rw [h2] at hy; exact absurd hy (by simp)

theorem c4_witness :
    committedIn (c4Post [(20, 1)] [(30, 2)] [(10, 3)]) 2 = true ∧
    keyMem [(10, 3), (20, 1)] 10 = true ∧
    keyMem [(10, 3), (20, 1)] 30 = false := by
  have X := c4_committed_parent_skipped false [(20, 1)] [(30, 2)] [(10, 3)] []
    (c4Post [(20, 1)] [(30, 2)] [(10, 3)]) [(10, 3), (20, 1)] (by decide)
    (by
      intro k hk
      have hk30 : (30 : Int) = k := by simpa [keyMem] using hk
      subst hk30
      exact ⟨by decide, by decide, by decide⟩)
  exact ⟨X.1, X.2.1 10 (by decide), X.2.2 30 (by decide)⟩

/-! Shadow storage: guard-pattern facts. -/

theorem set_append_right_add {α : Type} (l1 : List α) (l2 : List α) (i : Nat) (a : α) :
    (l1 ++ l2).set (l1.length + i) a = l1 ++ l2.set i a := by
  induction l1 with
  | nil => simp
  | cons x xs ih =>
    have harith : (x :: xs).length + i = (xs.length + i) + 1 := by
      simp only [List.length_cons]
      omega
    rw [harith, List.cons_append, List.set, List.cons_append, ih]

theorem set_ne_of_getD {α : Type} (l : List α) (i : Nat) (a d : α)
    (hi : i < l.length) (ha : a ≠ l.getD i d) : l.set i a ≠ l := by
  intro he
  apply ha
  rw [← getD_set_self l i d a hi, he]

theorem allocEq (r : RecordData) (ctx size : Nat)
    (h0 : (getSlot r ctx).buf0 = none) :
    AllocShadowStorage r ctx size =
      { r with shadow := r.shadow.set ctx (ShadowSlot.mk
          (some (List.replicate size 0 ++ markerValue))
          (some (List.replicate size 0 ++ markerValue)) size) } := by
  unfold AllocShadowStorage
  rw [show (r.shadow.getD ctx emptySlot).buf0 = none from h0]

theorem allocNoop (r : RecordData) (ctx size : Nat) (b : List Nat)
    (hb : (getSlot r ctx).buf0 = some b) :
    AllocShadowStorage r ctx size = r := by
  unfold AllocShadowStorage
  rw [show (r.shadow.getD ctx emptySlot).buf0 = some b from hb]

theorem getSlot_alloc (r : RecordData) (ctx size : Nat)
    (hctx : ctx < r.shadow.length) (h0 : (getSlot r ctx).buf0 = none) :
    getSlot (AllocShadowStorage r ctx size) ctx =
      ⟨some (List.replicate size 0 ++ markerValue),
       some (List.replicate size 0 ++ markerValue), size⟩ := by
  rw [allocEq r ctx size h0]
  exact getD_set_self _ _ _ _ hctx

theorem drop_size_append (size : Nat) (X : List Nat) :
    (List.replicate size (0 : Nat) ++ X).drop size = X := by
  have := List.drop_left (List.replicate size (0 : Nat)) X
  rwa [List.length_replicate] at this

theorem guardOK_fresh (size : Nat) :
    guardOK (List.replicate size 0 ++ markerValue) size = true := by
  unfold guardOK
  rw [drop_size_append]
  rw [show markerValue.take 32 = markerValue from rfl]
  simp

theorem guardOK_corrupt (size i bb : Nat) (hi : i < 32)
    (hbb : bb ≠ markerValue.getD i 0) :
    guardOK ((List.replicate size 0 ++ markerValue).set (size + i) bb) size = false := by
  have hrep : (List.replicate size (0 : Nat)).length = size := List.length_replicate size 0
  have hset : (List.replicate size 0 ++ markerValue).set (size + i) bb
      = List.replicate size 0 ++ markerValue.set i bb := by
    have := set_append_right_add (List.replicate size (0 : Nat)) markerValue i bb
    rwa [hrep] at this
  rw [hset]
  unfold guardOK
  rw [drop_size_append]
  have hlen : (markerValue.set i bb).length = 32 := by
    rw [List.length_set]
    rfl
  have htake : (markerValue.set i bb).take 32 = markerValue.set i bb := by
    rw [← hlen, List.take_length]
  rw [htake]
  have hne : markerValue.set i bb ≠ markerValue :=
    set_ne_of_getD markerValue i bb 0 (by rw [show markerValue.length = 32 from rfl]; exact hi) hbb
  exact beq_eq_false_iff_ne.mpr hne

theorem verify_by_slot (r : RecordData) (ctx : Nat) (sl : ShadowSlot)
    (h : getSlot r ctx = sl) :
    VerifyShadowStorage r ctx =
      ((match sl.buf0 with
        | none => true
        | some buf => guardOK buf sl.size) &&
       (match sl.buf1 with
        | none => true
        | some buf => guardOK buf sl.size)) := by
  unfold VerifyShadowStorage
  rw [h]

theorem verify_corrupt_general (r1 : RecordData) (ctx which i bb : Nat)
    (hctx1 : ctx < r1.shadow.length)
    (hslot : getSlot r1 ctx = ShadowSlot.mk
      (some (List.replicate 64 0 ++ markerValue))
      (some (List.replicate 64 0 ++ markerValue)) 64)
    (hi : i < 32) (hbb : bb ≠ markerValue.getD i 0) :
    VerifyShadowStorage (writeShadowByte r1 ctx which (64 + i) bb) ctx = false := by
  by_cases hw : which = 0
  · subst hw
    have hw2 : writeShadowByte r1 ctx 0 (64 + i) bb =
        { r1 with shadow := r1.shadow.set ctx (ShadowSlot.mk
            (some ((List.replicate 64 0 ++ markerValue).set (64 + i) bb))
            (some (List.replicate 64 0 ++ markerValue)) 64) } := by
      unfold writeShadowByte
      rw [hslot]
      simp
    rw [hw2]
    have hs2 : getSlot { r1 with shadow := r1.shadow.set ctx (ShadowSlot.mk
        (some ((List.replicate 64 0 ++ markerValue).set (64 + i) bb))
        (some (List.replicate 64 0 ++ markerValue)) 64) } ctx = ShadowSlot.mk
          (some ((List.replicate 64 0 ++ markerValue).set (64 + i) bb))
          (some (List.replicate 64 0 ++ markerValue)) 64 :=
      getD_set_self _ _ _ _ hctx1
    rw [verify_by_slot _ _ _ hs2]
    show (guardOK ((List.replicate 64 0 ++ markerValue).set (64 + i) bb) 64 &&
      guardOK (List.replicate 64 0 ++ markerValue) 64) = false
    rw [guardOK_corrupt 64 i bb hi hbb]
    simp
  · have hw2 : writeShadowByte r1 ctx which (64 + i) bb =
        { r1 with shadow := r1.shadow.set ctx (ShadowSlot.mk
            (some (List.replicate 64 0 ++ markerValue))
            (some ((List.replicate 64 0 ++ markerValue).set (64 + i) bb)) 64) } := by
      unfold writeShadowByte
      rw [hslot]
      simp [hw]
    rw [hw2]
    have hs2 : getSlot { r1 with shadow := r1.shadow.set ctx (ShadowSlot.mk
        (some (List.replicate 64 0 ++ markerValue))
        (some ((List.replicate 64 0 ++ markerValue).set (64 + i) bb)) 64) } ctx = ShadowSlot.mk
          (some (List.replicate 64 0 ++ markerValue))
          (some ((List.replicate 64 0 ++ markerValue).set (64 + i) bb)) 64 :=
      getD_set_self _ _ _ _ hctx1
    rw [verify_by_slot _ _ _ hs2]
    show (guardOK (List.replicate 64 0 ++ markerValue) 64 &&
      guardOK ((List.replicate 64 0 ++ markerValue).set (64 + i) bb) 64) = false
    rw [guardOK_corrupt 64 i bb hi hbb]
    simp

/-- C6: on an unallocated slot, `AllocShadowStorage` installs two buffers
of `size + 32` bytes (32 being the guard length `sizeof(markerValue)`),
whose trailing 32 bytes are exactly the canonical guard pattern, and
records `size` for the slot; on a slot that already holds buffers it
changes nothing at all. -/
theorem c6_alloc_shadow (r : RecordData) (ctx size : Nat)
    (hctx : ctx < r.shadow.length) :
    ((getSlot r ctx).buf0 = none →
      ∃ buf : List Nat,
        getSlot (AllocShadowStorage r ctx size) ctx =
          ShadowSlot.mk (some buf) (some buf) size ∧
        buf.length = size + 32 ∧ buf.drop size = markerValue) ∧
    (∀ b : List Nat, (getSlot r ctx).buf0 = some b →
      AllocShadowStorage r ctx size = r) := by
  constructor
  · intro h0
    refine ⟨List.replicate size 0 ++ markerValue, getSlot_alloc r ctx size hctx h0,
      ?_, drop_size_append size markerValue⟩
    rw [List.length_append, List.length_replicate]
    rfl
  · intro b hb
    exact allocNoop r ctx size b hb

theorem c6_alloc_shadow_witness :
    AllocShadowStorage (AllocShadowStorage freshRecord 0 4) 0 7 =
      AllocShadowStorage freshRecord 0 4 :=
  (c6_alloc_shadow (AllocShadowStorage freshRecord 0 4) 0 7 (by decide)).2
    (List.replicate 4 0 ++ markerValue) (by decide)

/-- C7: `VerifyShadowStorage` returns false exactly when an allocated
buffer of the slot no longer carries the canonical guard pattern at the
recorded size; it returns true for an unallocated slot; allocating a
64-byte slot and verifying immediately yields true; and overwriting any
single byte of either buffer's trailing guard region with a different
value makes verification fail. -/
theorem c7_verify_shadow (r : RecordData) (ctx : Nat) :
    (VerifyShadowStorage r ctx = false ↔
      ((∃ b, (getSlot r ctx).buf0 = some b ∧
          guardOK b (getSlot r ctx).size = false) ∨
       (∃ b, (getSlot r ctx).buf1 = some b ∧
          guardOK b (getSlot r ctx).size = false))) ∧
    ((getSlot r ctx).buf0 = none → (getSlot r ctx).buf1 = none →
      VerifyShadowStorage r ctx = true) ∧
    (ctx < r.shadow.length → (getSlot r ctx).buf0 = none →
      VerifyShadowStorage (AllocShadowStorage r ctx 64) ctx = true ∧
      (∀ which i bb : Nat, i < 32 → bb ≠ markerValue.getD i 0 →
        VerifyShadowStorage
          (writeShadowByte (AllocShadowStorage r ctx 64) ctx which (64 + i) bb)
            ctx = false)) := by
  refine ⟨?_, ?_, ?_⟩
  · cases h0 : (getSlot r ctx).buf0 with
    | none =>
      cases h1 : (getSlot r ctx).buf1 with
      | none =>
        rw [verify_by_slot r ctx (ShadowSlot.mk none none (getSlot r ctx).size)
          (by cases hs : getSlot r ctx; simp_all)]
        simp [h0, h1]
      | some b1 =>
        rw [verify_by_slot r ctx (ShadowSlot.mk none (some b1) (getSlot r ctx).size)
          (by cases hs : getSlot r ctx; simp_all)]
        cases hg : guardOK b1 (getSlot r ctx).size <;> simp_all
    | some b0 =>
      cases h1 : (getSlot r ctx).buf1 with
      | none =>
        rw [verify_by_slot r ctx (ShadowSlot.mk (some b0) none (getSlot r ctx).size)
          (by cases hs : getSlot r ctx; simp_all)]
        cases hg : guardOK b0 (getSlot r ctx).size <;> simp_all
      | some b1 =>
        rw [verify_by_slot r ctx (ShadowSlot.mk (some b0) (some b1) (getSlot r ctx).size)
          (by cases hs : getSlot r ctx; simp_all)]
        cases hg0 : guardOK b0 (getSlot r ctx).size <;>
          cases hg1 : guardOK b1 (getSlot r ctx).size <;> simp_all
  · intro h0 h1
    rw [verify_by_slot r ctx (ShadowSlot.mk none none (getSlot r ctx).size)
      (by cases hs : getSlot r ctx; simp_all)]
    rfl
  · intro hctx h0
    have hslot := getSlot_alloc r ctx 64 hctx h0
    constructor
    · rw [verify_by_slot _ _ _ hslot]
      show (guardOK (List.replicate 64 0 ++ markerValue) 64 &&
        guardOK (List.replicate 64 0 ++ markerValue) 64) = true
      rw [guardOK_fresh]
      rfl
    · intro which i bb hi hbb
      have hctx1 : ctx < (AllocShadowStorage r ctx 64).shadow.length := by
        rw [allocEq r ctx 64 h0]
        simpa [List.length_set] using hctx
      exact verify_corrupt_general (AllocShadowStorage r ctx 64) ctx which i bb
        hctx1 hslot hi hbb

/-! Shadow-slot pair invariant: the two buffers of a slot are either both
allocated or both null. -/

def pairInv (r : RecordData) : Prop :=
  ∀ sl ∈ r.shadow, (sl.buf0 = none ↔ sl.buf1 = none)

theorem pairInv_fresh : pairInv freshRecord := by
  intro sl hsl
  rw [List.eq_of_mem_replicate hsl]
  exact Iff.rfl

theorem pairInv_alloc (r : RecordData) (ctx size : Nat) (hr : pairInv r) :
    pairInv (AllocShadowStorage r ctx size) := by
  cases h0 : (getSlot r ctx).buf0 with
  | some b =>
    rw [allocNoop r ctx size b h0]
    exact hr
  | none =>
    rw [allocEq r ctx size h0]
    intro sl hsl
    rcases List.mem_or_eq_of_mem_set hsl with hm | heq
    · exact hr sl hm
    · rw [heq]

theorem pairInv_free (r : RecordData) (_hr : pairInv r) :
    pairInv (FreeShadowStorage r) := by
  intro sl hsl
  rcases List.mem_map.mp hsl with ⟨sl0, _, heq⟩
  rw [← heq]

theorem pairInv_getCtx (r : RecordData) (hr : pairInv r) :
    pairInv (GetContextID r).2.1 := by
  unfold GetContextID
  cases hf : ((List.range 31).map (· + 1)).find?
      (fun i => r.contexts.getD i true = false) with
  | none => exact hr
  | some i => exact hr

theorem pairInv_freeCtx (r : RecordData) (ctx : Nat) (hr : pairInv r) :
    pairInv (FreeContextID r ctx) := hr

theorem pairInv_default : pairInv defaultRec := by
  intro sl hsl
  simp [defaultRec] at hsl

theorem pairInv_setState (s : RState) (r : Nat) (rd : RecordData)
    (hs : ∀ x ∈ s, pairInv x) (hrd : pairInv rd) :
    ∀ x ∈ s.set r rd, pairInv x := by
  intro x hx
  rcases List.mem_or_eq_of_mem_set hx with hm | heq
  · exact hs x hm
  · rw [heq]
    exact hrd

theorem pairInv_getRec (s : RState) (x : Nat) (hs : ∀ rd ∈ s, pairInv rd) :
    pairInv (getRec s x) := by
  rcases getD_mem_or_default s x defaultRec with hm | hd
  · exact hs _ hm
  · rw [getRec, hd]
    exact pairInv_default

theorem pairInv_setDataPtrList
    (f : RState → Nat → RState)
    (hf : ∀ (s : RState) (q : Nat), (∀ rd ∈ s, pairInv rd) →
      ∀ rd ∈ f s q, pairInv rd) :
    ∀ (l : List Nat) (s : RState), (∀ rd ∈ s, pairInv rd) →
      ∀ rd ∈ setDataPtrList f s l, pairInv rd := by
  intro l
  induction l with
  | nil => intro s hs; exact hs
  | cons q rest ih =>
    intro s hs
    exact ih (f s q) (hf s q hs)

theorem pairInv_setDataPtr (fuel : Nat) :
    ∀ (s : RState) (r ptr : Nat), (∀ rd ∈ s, pairInv rd) →
      ∀ rd ∈ setDataPtrF fuel s r ptr, pairInv rd := by
  induction fuel with
  | zero => intro s r ptr hs; exact hs
  | succ fuel ih =>
    intro s r ptr hs
    rw [setDataPtrF]
    apply pairInv_setDataPtrList (fun acc q => setDataPtrF fuel acc q ptr)
      (fun s0 q hs0 => ih s0 q ptr hs0)
    apply pairInv_setState s r _ hs
    intro sl hsl
    exact pairInv_getRec s r hs sl hsl

theorem getD_eq_getElem_of_lt {α : Type} (l : List α) (i : Nat) (d : α)
    (h : i < l.length) : l.getD i d = l[i] := by
  induction l generalizing i with
  | nil => simp at h
  | cons x xs ih =>
    cases i with
    | zero => rfl
    | succ n =>
      simp only [List.getD_cons_succ, List.getElem_cons_succ]
      exact ih n (by simpa using Nat.lt_of_succ_lt_succ h)

theorem pairInv_state_of_mono {s t : RState} (hm : Mono s t)
    (hs : ∀ rd ∈ s, pairInv rd) : ∀ rd ∈ t, pairInv rd := by
  intro rd hrd
  rcases List.getElem_of_mem hrd with ⟨x, hx, heq⟩
  have hx2 : getRec t x = rd := by
    rw [getRec, getD_eq_getElem_of_lt t x defaultRec hx, heq]
  have hshadow : rd.shadow = (getRec s x).shadow := by
    rw [← hx2]
    exact (hm.1.2 x).2.2.2.1
  intro sl hsl
  rw [hshadow] at hsl
  exact pairInv_getRec s x hs sl hsl

/-- C9: the slot pair invariant — the two buffers of every shadow slot
are either both allocated or both null — holds for a freshly constructed
record and is preserved by `AllocShadowStorage`, `FreeShadowStorage`,
`GetContextID`, `FreeContextID`, `SetDataPtr` and `Insert`.
(`VerifyShadowStorage` and `GetShadowPtr` are read-only in the model:
they return a value and leave the record untouched, so there is nothing
to preserve.) -/
theorem c9_pair_invariant (r : RecordData) (ctx size ptr fuel rid : Nat)
    (s : RState) (c : RecordList)
    (hr : pairInv r) (hs : ∀ rd ∈ s, pairInv rd) :
    pairInv freshRecord ∧
    pairInv (AllocShadowStorage r ctx size) ∧
    pairInv (FreeShadowStorage r) ∧
    pairInv (GetContextID r).2.1 ∧
    pairInv (FreeContextID r ctx) ∧
    (∀ rd ∈ setDataPtrF fuel s rid ptr, pairInv rd) ∧
    (∀ (t : RState) (d : RecordList), insertF fuel s c rid = some (t, d) →
      ∀ rd ∈ t, pairInv rd) := by
  refine ⟨pairInv_fresh, pairInv_alloc r ctx size hr, pairInv_free r hr,
    pairInv_getCtx r hr, pairInv_freeCtx r ctx hr,
    pairInv_setDataPtr fuel s rid ptr hs, ?_⟩
  intro t d h
  exact pairInv_state_of_mono ((insertF_spec fuel s c rid t d h).1).mono hs

theorem c9_pair_invariant_witness : pairInv (AllocShadowStorage freshRecord 0 4) :=
  (c9_pair_invariant freshRecord 0 4 0 1 0 [] [] pairInv_fresh
    (fun rd hrd => absurd hrd (List.not_mem_nil rd))).2.1

/-- C8: from a freshly constructed record, 31 successive `GetContextID`
calls return the ids 1, 2, ..., 31 — pairwise distinct, each in the
range [1, 31] — and the 32nd call reports the exhaustion error and
returns the sentinel 0 with the table unchanged. -/
theorem c8_context_exhaustion :
    (allocSeq 31 freshRecord).1 = (List.range 31).map (· + 1) ∧
    (allocSeq 31 freshRecord).1.Nodup ∧
    (∀ j ∈ (allocSeq 31 freshRecord).1, 1 ≤ j ∧ j ≤ 31) ∧
    GetContextID (allocSeq 31 freshRecord).2 =
      (0, (allocSeq 31 freshRecord).2, true) := by decide

/-- C10: when every slot 1..31 is already in use, the failing
`GetContextID` returns the sentinel 0 and the error flag while leaving
the record — in particular the context table, slot 0 included — exactly
as it was, so any later sequence of `FreeContextID` calls behaves as if
the failed call had never happened. -/
theorem c10_failed_alloc_no_mutation (r : RecordData)
    (h : ∀ i : Nat, 1 ≤ i → i ≤ 31 → r.contexts.getD i true = true) :
    GetContextID r = (0, r, true) ∧
    (∀ frees : List Nat,
      frees.foldl (fun acc j => FreeContextID acc j) (GetContextID r).2.1 =
        frees.foldl (fun acc j => FreeContextID acc j) r) := by
  have hfind : ((List.range 31).map (· + 1)).find?
      (fun i => r.contexts.getD i true = false) = none := by
    rw [List.find?_eq_none]
    intro x hx
    rcases List.mem_map.mp hx with ⟨j, hj, hxj⟩
    have hj31 : j < 31 := List.mem_range.mp hj
    have hxt : r.contexts.getD x true = true := by
      rw [← hxj]
      exact h (j + 1) (by omega) (by omega)
    simp only [decide_eq_true_eq]
    rw [hxt]
    simp
  have hmain : GetContextID r = (0, r, true) := by
    unfold GetContextID
    rw [hfind]
  exact ⟨hmain, fun frees => by rw [hmain]⟩

/-- Record whose context slots 1..31 (and 0) are all in use. -/
def fullCtxRecord : RecordData :=
  { freshRecord with contexts := List.replicate 32 true }

theorem c10_failed_alloc_no_mutation_witness :
    GetContextID fullCtxRecord = (0, fullCtxRecord, true) :=
  (c10_failed_alloc_no_mutation fullCtxRecord
    (fun i _ _ => by
      rcases getD_mem_or_default fullCtxRecord.contexts i true with hm | hd
      · exact List.eq_of_mem_replicate hm
      · exact hd)).1

theorem c7_verify_shadow_witness :
    VerifyShadowStorage (AllocShadowStorage freshRecord 0 64) 0 = true ∧
    VerifyShadowStorage
      (writeShadowByte (AllocShadowStorage freshRecord 0 64) 0 0 (64 + 0) 0) 0 = false := by
  have X := (c7_verify_shadow freshRecord 0).2.2 (by decide) (by decide)
  exact ⟨X.1, X.2 0 0 0 (by decide) (by decide)⟩
